import Mathlib

/-!
# Verification of the config-merger deep-merge and template-resolution core

Shallow embedding of `src/config_merger.py`: the value model, the deep merger
`update_dict_subkeys`, the combine-strategy table `META_funcs`, the template
resolver `replace_template_variables` (with its inner `_replace_template`),
and the overlay resolver `VariableOverlay.get`.

Python dicts are modelled as insertion-ordered association lists with unique
keys; Python exceptions are modelled by `Option` (`none` = the call raises).
-/

set_option maxHeartbeats 1600000

namespace ConfigMerger

/-- Python values flowing through the merger: scalars (str, int, bool, None),
lists, dicts (insertion-ordered association lists), and the sets produced by
the `and`/`or` combine strategies. -/
inductive Val : Type
  | str : String → Val
  | int : Int → Val
  | bool : Bool → Val
  | null : Val
  | list : List Val → Val
  | dict : List (String × Val) → Val
  | set : List Val → Val
deriving Repr

mutual

/-- Structural Boolean equality on values. -/
def beqVal : Val → Val → Bool
  | .str a, .str b => a == b
  | .int a, .int b => a == b
  | .bool a, .bool b => a == b
  | .null, .null => true
  | .list a, .list b => beqValList a b
  | .dict a, .dict b => beqValDict a b
  | .set a, .set b => beqValList a b
  | _, _ => false

/-- Pointwise equality on value lists. -/
def beqValList : List Val → List Val → Bool
  | [], [] => true
  | a :: as', b :: bs' => beqVal a b && beqValList as' bs'
  | _, _ => false

/-- Pointwise equality on dict entry lists. -/
def beqValDict : List (String × Val) → List (String × Val) → Bool
  | [], [] => true
  | (ka, va) :: as', (kb, vb) :: bs' => (ka == kb) && beqVal va vb && beqValDict as' bs'
  | _, _ => false

end

instance : BEq Val := ⟨beqVal⟩

/-- Association-list representation of a Python dict. -/
abbrev Dict := List (String × Val)

/-- `d[k]` lookup: first matching entry. -/
def dlookup : Dict → String → Option Val
  | [], _ => none
  | (k', v) :: rest, k => if k' = k then some v else dlookup rest k

/-- Python `d[k] = v`: replace in place if the key exists (position kept),
else append at the end. -/
def dinsert : Dict → String → Val → Dict
  | [], k, v => [(k, v)]
  | (k', v') :: rest, k, v =>
      if k' = k then (k, v) :: rest else (k', v') :: dinsert rest k v

/-- Python `d.pop(k, default)`, the removal part: drop the entry for `k`. -/
def dremove : Dict → String → Dict
  | [], _ => []
  | (k', v') :: rest, k => if k' = k then rest else (k', v') :: dremove rest k

/-- Hash key of a hashable Python value: `1 == True`, `0 == False` collapse
to the same numeric key, mirroring Python's numeric equality inside sets. -/
inductive HK : Type
  | hstr : String → HK
  | hnum : Int → HK
  | hnull : HK
deriving DecidableEq, Repr

/-- `hashKey v = some k` iff `v` is hashable in Python (lists, dicts and sets
are unhashable). -/
def hashKey : Val → Option HK
  | .str s => some (.hstr s)
  | .int n => some (.hnum n)
  | .bool b => some (.hnum (if b then 1 else 0))
  | .null => some .hnull
  | _ => none

/-- Python `==` as used by the merger: on hashable scalars it is hash-key
equality (so `1 == True`); compound values compare structurally (Python's
recursive `==` with numeric coercion inside containers is not needed by any
code path exercised here). -/
def pyEq (a b : Val) : Bool :=
  match hashKey a, hashKey b with
  | some x, some y => x == y
  | none, none => beqVal a b
  | _, _ => false

/-- Membership in a Python set, by hash key (all set elements are hashable). -/
def memH (x : Val) : List Val → Bool
  | [] => false
  | y :: ys => (hashKey y == hashKey x) || memH x ys

/-- Deduplicate by hash key keeping first occurrences — the canonical
representative list of the Python set built from the given elements. -/
def dedupH : List Val → List Val
  | [] => []
  | x :: xs => if memH x xs then dedupH xs else x :: dedupH xs

/-- `DEFAULT_METADATA_KEY` from the source. -/
def META : String := "__CONFIG-MERGER-META__"

/-- `d.pop(metadata_key, {})` followed by `{**·}`: remove the metadata entry
and return its key/value pairs; `none` when the metadata value is present but
is not a mapping (Python's `{**nonmapping}` raises). -/
def popMeta (d : Dict) : Option (Dict × Dict) :=
  match dlookup d META with
  | none => some (d, [])
  | some (.dict m) => some (dremove d META, m)
  | some _ => none

/-- `{**a, **b}`: entries of `b` inserted over `a`, `b` overriding on
collision. -/
def metaMerge (a b : Dict) : Dict :=
  b.foldl (fun acc kv => dinsert acc kv.1 kv.2) a

/-- `meta.get(k, 'concat')`. -/
def stratName (meta : Dict) (k : String) : Val :=
  (dlookup meta k).getD (.str "concat")

/-- Python `set(v)`: the canonical element list of the set built by iterating
`v`. Lists and sets yield their elements (elements must be hashable), a
string yields its characters, a dict yields its keys; non-iterables raise. -/
def toPySet : Val → Option (List Val)
  | .list xs => if xs.all (fun x => (hashKey x).isSome) then some (dedupH xs) else none
  | .set xs => if xs.all (fun x => (hashKey x).isSome) then some (dedupH xs) else none
  | .str s => some (dedupH (s.data.map (fun c => .str ⟨[c]⟩)))
  | .dict kvs => some (dedupH (kvs.map (fun kv => .str kv.1)))
  | _ => none

/-- Canonical intersection: representatives taken from the left operand. -/
def interH (a b : List Val) : List Val := a.filter (fun x => memH x b)

/-- Canonical union: left operand's elements, then the right's new ones. -/
def unionH (a b : List Val) : List Val := a ++ b.filter (fun x => !memH x a)

/-- `META_funcs['combine'][strategy](a, b)`. An unknown strategy name raises
(Python `KeyError`); `concat` is Python `a + b`, defined only on two lists
here; `keep`/`replace` return an operand unexamined; `and`/`or` build the
Python sets of both operands and intersect/union them. -/
def combineV (strategy : Val) (a b : Val) : Option Val :=
  match strategy with
  | .str "concat" =>
      match a, b with
      | .list xs, .list ys => some (.list (xs ++ ys))
      | _, _ => none
  | .str "keep" => some a
  | .str "replace" => some b
  | .str "and" => do
      let sa ← toPySet a
      let sb ← toPySet b
      some (.set (interH sa sb))
  | .str "or" => do
      let sa ← toPySet a
      let sb ← toPySet b
      some (.set (unionH sa sb))
  | _ => none

mutual

/-- `update_dict_subkeys(d, u, none_values_are_transparent, metadata_key=META)`
from the source: pop and merge the metadata of both operands (update wins),
then fold the update's items into the base. Raises (`none`) when an operand
is not a mapping — as happens when the recursion reaches a non-mapping base
value via `d.get(k, {})`. -/
def uds (nt : Bool) (d u : Val) : Option Val :=
  match d, u with
  | .dict dkv, .dict ukv =>
      match popMeta dkv, popMeta ukv with
      | some (d0, md), some (_, mu) =>
          (udsGo nt (metaMerge md mu) d0 ukv).map .dict
      | _, _ => none
  | _, _ => none

/-- The `for k, v in u.items()` loop body of `update_dict_subkeys`, threading
the mutated base dict. The metadata entry was popped before the loop, so it
is skipped here (the remaining items and their order are unchanged). -/
def udsGo (nt : Bool) (meta : Dict) (d : Dict) : List (String × Val) → Option Dict
  | [] => some d
  | (k, v) :: rest =>
      if k = META then udsGo nt meta d rest
      else
        match v with
        | .dict _ => do
            let sub ← uds nt ((dlookup d k).getD (.dict [])) v
            udsGo nt meta (dinsert d k sub) rest
        | .list _ => do
            let r ← combineV (stratName meta k) ((dlookup d k).getD (.list [])) v
            udsGo nt meta (dinsert d k r) rest
        | .set _ => do
            let r ← combineV (stratName meta k) ((dlookup d k).getD (.list [])) v
            udsGo nt meta (dinsert d k r) rest
        | _ =>
            if nt && (dlookup d k).isSome && pyEq v .null then udsGo nt meta d rest
            else udsGo nt meta (dinsert d k v) rest

end

/-! ## Template resolution -/

/-- Scope chain (`collections.ChainMap`): the current dict first, then the
ancestor namespaces, nearest first. -/
abbrev Chain := List Dict

/-- `ChainMap.get(k)`: the first dict in the chain holding the key wins. -/
def chainGet : Chain → String → Option Val
  | [], _ => none
  | d :: rest, k =>
      match dlookup d k with
      | some v => some v
      | none => chainGet rest k

mutual

/-- Python `repr` of a value, as produced inside `str` of a container.
Strings are shown in single quotes (the escaping of quotes and control
characters inside them is not modelled; no theorem evaluates it on such
strings). -/
def pyRepr : Val → String
  | .str s => "'" ++ s ++ "'"
  | .int n => toString n
  | .bool b => if b then "True" else "False"
  | .null => "None"
  | .list xs => "[" ++ pyReprList xs ++ "]"
  | .dict kvs => "\x7b" ++ pyReprDict kvs ++ "\x7d"
  | .set xs => if xs.isEmpty then "set()" else "\x7b" ++ pyReprList xs ++ "\x7d"

/-- Comma-joined `repr`s of list elements. -/
def pyReprList : List Val → String
  | [] => ""
  | [x] => pyRepr x
  | x :: y :: rest => pyRepr x ++ ", " ++ pyReprList (y :: rest)

/-- Comma-joined `'key': repr(value)` pairs. -/
def pyReprDict : List (String × Val) → String
  | [] => ""
  | [(k, v)] => "'" ++ k ++ "': " ++ pyRepr v
  | (k, v) :: p :: rest => "'" ++ k ++ "': " ++ pyRepr v ++ ", " ++ pyReprDict (p :: rest)

end

/-- Python `str(v)`: the string itself for strings, `repr`-style otherwise. -/
def pyStr : Val → String
  | .str s => s
  | v => pyRepr v

/-- Split a character list at its first `\x7d`: the part before and the part
after. `none` when there is no closing brace. -/
def splitAtBrace : List Char → Option (List Char × List Char)
  | [] => none
  | c :: rest =>
      if c = '\x7d' then some ([], rest)
      else (splitAtBrace rest).map (fun p => (c :: p.1, p.2))

/-- The part after the first `\x7d` is no longer than the input. -/
theorem splitAtBrace_len : ∀ l a b, splitAtBrace l = some (a, b) → b.length ≤ l.length := by
  intro l
  induction l with
  | nil => intro a b h; simp [splitAtBrace] at h
  | cons c rest ih =>
      intro a b h
      rw [splitAtBrace] at h
      by_cases hc : c = '\x7d'
      · rw [if_pos hc] at h
        injection h with h
        injection h with _ hb
        rw [← hb]
        simp
      · rw [if_neg hc] at h
        cases hsp : splitAtBrace rest with
        | none => rw [hsp] at h; simp at h
        | some p =>
            rw [hsp] at h
            simp at h
            have := ih p.1 p.2 (by rw [hsp])
            rw [← h.2]
            simp only [List.length_cons]
            omega

/-- `REGEX_TEMPLATE_VAR.findall(value)` for the pattern `\$\x7b(.+?)\x7d`:
every capture, in scan order. A match needs `$\x7b`, then at least one
captured character, then the first following `\x7d`; a capture containing a
newline is rejected (`.` does not match newlines) and the scan then resumes
one character later; scanning continues after each match. -/
def findToks : List Char → List (List Char)
  | [] => []
  | c0 :: rest0 =>
      if c0 = '$' then
        match rest0 with
        | c1 :: c :: rest =>
            if c1 = '\x7b' then
              match h : splitAtBrace rest with
              | some (mid, after) =>
                  if (c :: mid).contains '\n' then findToks (c1 :: c :: rest)
                  else (c :: mid) :: findToks after
              | none => findToks (c1 :: c :: rest)
            else findToks (c1 :: c :: rest)
        | rest1 => findToks rest1
      else findToks rest0
termination_by s => s.length
decreasing_by
  all_goals simp_all [List.length_cons]
  all_goals try omega
  all_goals (have hsb := splitAtBrace_len _ _ _ h; omega)

/-- One scan step of Python `str.replace(p :: ps, rep)`: left to right,
non-overlapping, replaced text not rescanned. -/
def replGo (p : Char) (ps rep : List Char) : List Char → List Char
  | [] => []
  | c :: cs =>
      if (p :: ps).isPrefixOf (c :: cs) then rep ++ replGo p ps rep (cs.drop ps.length)
      else c :: replGo p ps rep cs
termination_by s => s.length
decreasing_by
  all_goals simp [List.length_cons, List.length_drop]
  all_goals omega

/-- Python `str.replace(pat, rep)` on character lists (the empty pattern
never occurs: the pattern is always `$\x7b...\x7d`). -/
def replChars (pat rep s : List Char) : List Char :=
  match pat with
  | [] => s
  | p :: ps => replGo p ps rep s

/-- `TEMPLATE_REPLACEMENT % token`: the characters of `$\x7btoken\x7d`. -/
def tokPat (tok : List Char) : List Char := '$' :: '\x7b' :: (tok ++ ['\x7d'])

/-- `_replace_template(value)` from the source, with the enclosing
`data_chain` passed explicitly. Non-strings are returned unchanged. For a
string, every token found in the original text is replaced (everywhere it
occurs) by the stringified chain lookup, a missing name contributing
`str('') = ''`; the token list is the one found in the original string and is
not recomputed between replacements. -/
def replT (chain : Chain) : Val → Val
  | .str s =>
      .str ⟨(findToks s.data).foldl
        (fun acc tok =>
          replChars (tokPat tok)
            (pyStr ((chainGet chain (String.mk tok)).getD (.str ""))).data acc)
        s.data⟩
  | v => v

mutual

/-- `replace_template_variables(data, flat_parent_replacements)`: iterate the
mapping's items in order, replacing tokens in string values, recursing into
mapping values with the current chain as parent scope, and mapping
`_replace_template` over the elements of sequence values. A set value raises
(`v[:] = ...` on a Python set); other non-string scalars are untouched. The
dict is threaded so that later lookups see earlier replacements, as with the
in-place mutation in the source. -/
def rtv (data : Val) (parents : Chain) : Option Val :=
  match data with
  | .dict kvs => (rtvGo parents kvs kvs).map .dict
  | _ => none

/-- The `for k, v in data.items()` loop of `replace_template_variables`,
iterating the original items while threading the mutated dict `d`. -/
def rtvGo (parents : Chain) (d : Dict) : List (String × Val) → Option Dict
  | [] => some d
  | (k, v) :: rest =>
      match v with
      | .str _ => rtvGo parents (dinsert d k (replT (d :: parents) v)) rest
      | .dict _ => do
          let v' ← rtv v (d :: parents)
          rtvGo parents (dinsert d k v') rest
      | .list xs => rtvGo parents (dinsert d k (.list (xs.map (replT (d :: parents))))) rest
      | .set _ => none
      | _ => rtvGo parents d rest

end

/-! ## Overlay resolver -/

/-- `VariableOverlay._get_data(folder, name)` over an abstract filesystem
`fs` mapping (folder, name) to a parsed fragment: the fragment when the file
exists, else the empty mapping. -/
def getData (fs : String → String → Option Val) (folder name : String) : Val :=
  (fs folder name).getD (.dict [])

/-- `VariableOverlay.get(names, include_sub_folders)`: starting from an empty
accumulator, for each folder (current folder `''` first, then the given
subfolders in order), for each name (`'_default'` first, then the given names
in order), merge the fragment into the accumulator with the default merge
options. -/
def overlayGet (fs : String → String → Option Val) (names includeSubFolders : List String) : Option Val :=
  ("" :: includeSubFolders).foldlM
    (fun acc folder =>
      ("_default" :: names).foldlM
        (fun acc2 name => uds false acc2 (getData fs folder name)) acc)
    (.dict [])

/-- Modelled from the spec: the flat fragment sequence "for each folder in
(current-folder, then each of includeSubFolders in given order): for each
name in (a fixed default-fragment name, then each of names in given order)",
an absent file contributing an empty mapping. -/
def overlayFragments (fs : String → String → Option Val) (names includeSubFolders : List String) : List Val :=
  ("" :: includeSubFolders).flatMap
    (fun folder => ("_default" :: names).map (fun name => getData fs folder name))

/-- Modelled from the spec: fold the Deep Merger over the fragment sequence,
starting from an empty mapping, later fragments overriding earlier ones. -/
def overlaySpecGet (fs : String → String → Option Val) (names includeSubFolders : List String) : Option Val :=
  (overlayFragments fs names includeSubFolders).foldlM (uds false) (.dict [])

/-! ## Predicates used to state the claims -/

/-- The value takes the scalar branch of the merge loop: a string or a
non-iterable (int, bool, None). -/
def isScalar : Val → Bool
  | .str _ => true
  | .int _ => true
  | .bool _ => true
  | .null => true
  | _ => false

/-- The value is a (Python) string. -/
def isStr : Val → Bool
  | .str _ => true
  | _ => false

/-- The value is a Mapping. -/
def isDict : Val → Bool
  | .dict _ => true
  | _ => false

mutual

/-- Some mapping anywhere inside the value — including mappings that are
elements of sequences or sets — contains the reserved metadata key. -/
def containsMeta : Val → Bool
  | .dict kvs => containsMetaD kvs
  | .list xs => containsMetaL xs
  | .set xs => containsMetaL xs
  | _ => false

/-- `containsMeta` over a dict's entries. -/
def containsMetaD : List (String × Val) → Bool
  | [] => false
  | (k, v) :: rest => (k == META) || containsMeta v || containsMetaD rest

/-- `containsMeta` over a sequence's elements. -/
def containsMetaL : List Val → Bool
  | [] => false
  | x :: xs => containsMeta x || containsMetaL xs

end

mutual

/-- The metadata stripping `merge(\x7b\x7d, B)` actually performs: remove the
reserved key from every mapping reachable through mapping values (the merge
recursion visits exactly those), leaving sequence elements untouched. -/
def stripUnit : Val → Val
  | .dict kvs => .dict (stripUnitD kvs)
  | v => v

/-- `stripUnit` over a dict's entries. -/
def stripUnitD : List (String × Val) → List (String × Val)
  | [] => []
  | (k, v) :: rest =>
      if k == META then stripUnitD rest else (k, stripUnit v) :: stripUnitD rest

end

/-- The strings are pairwise distinct. -/
def nodupStr : List String → Bool
  | [] => true
  | k :: ks => (!ks.contains k) && nodupStr ks

/-- Keys of the non-metadata entries. -/
def nonMetaKeys (kvs : Dict) : List String :=
  (kvs.filter (fun p => p.1 != META)).map Prod.fst

/-- The metadata entries carried by a dict (empty when absent or malformed). -/
def metaOfD (kvs : Dict) : Dict :=
  match dlookup kvs META with
  | some (.dict m) => m
  | _ => []

mutual

/-- Sufficient condition for `merge(\x7b\x7d, B) = stripUnit B`: a well-formed
mapping (unique keys, well-formed metadata) whose sequence-valued keys are
governed only by the `concat` or `replace` strategies, with no set values and
recursively well-formed mapping values. -/
def unitOK : Val → Bool
  | .dict kvs =>
      (popMeta kvs).isSome && nodupStr (nonMetaKeys kvs) &&
        unitOKD (metaMerge [] (metaOfD kvs)) kvs
  | _ => false

/-- `unitOK` over the entries, given the merged per-call metadata. -/
def unitOKD (meta : Dict) : List (String × Val) → Bool
  | [] => true
  | (k, v) :: rest =>
      (if k == META then true
       else
         match v with
         | .dict _ => unitOK v
         | .list _ =>
             (match stratName meta k with
              | .str "concat" => true
              | .str "replace" => true
              | _ => false)
         | .set _ => false
         | _ => true) && unitOKD meta rest

end

/-- The base value at a sequence key supports `concat`: absent or a list. -/
def concatBaseOK : Option Val → Bool
  | none => true
  | some (.list _) => true
  | _ => false

/-- The operands of an `and`/`or` merge are hashable: the update value is a
list of hashables and the base value is absent or a list of hashables (the
predicate is a sufficient condition; Python would also accept strings, dicts
and sets as set operands). -/
def hashListOK : Option Val → Bool
  | none => true
  | some (.list xs) => xs.all (fun x => (hashKey x).isSome)
  | _ => false

mutual

/-- Sufficient type-compatibility condition under which the merge is total:
both operands are mappings with well-formed metadata and unique update keys,
mapping update values meet mapping-or-absent base values, list update values
meet a base and strategy that combine without error, and no update value is a
set. -/
def compat (d u : Val) : Bool :=
  match d, u with
  | .dict dkv, .dict ukv =>
      (popMeta dkv).isSome && (popMeta ukv).isSome &&
        nodupStr (nonMetaKeys ukv) &&
        compatD (metaMerge (metaOfD dkv) (metaOfD ukv)) (dremove dkv META) ukv
  | _, _ => false

/-- `compat` over the update's entries, against the metadata-stripped base. -/
def compatD (meta : Dict) (d0 : Dict) : List (String × Val) → Bool
  | [] => true
  | (k, v) :: rest =>
      (if k == META then true
       else
         match v with
         | .dict _ =>
             (match dlookup d0 k with
              | none => compat (.dict []) v
              | some (.dict bkv) => compat (.dict bkv) v
              | some _ => false)
         | .list xs =>
             (match stratName meta k with
              | .str "keep" => true
              | .str "replace" => true
              | .str "concat" => concatBaseOK (dlookup d0 k)
              | .str "and" =>
                  xs.all (fun x => (hashKey x).isSome) && hashListOK (dlookup d0 k)
              | .str "or" =>
                  xs.all (fun x => (hashKey x).isSome) && hashListOK (dlookup d0 k)
              | _ => false)
         | .set _ => false
         | _ => true) && compatD meta d0 rest

end

mutual

/-- No set value sits where the template resolver's sequence branch would
reach it: the resolver walks mapping values only (sets nested inside lists
are untouched and harmless). -/
def noSetVals : Val → Bool
  | .dict kvs => noSetValsD kvs
  | _ => true

/-- `noSetVals` over a dict's entries. -/
def noSetValsD : List (String × Val) → Bool
  | [] => true
  | (_, v) :: rest =>
      (match v with
       | .set _ => false
       | .dict _ => noSetVals v
       | _ => true) && noSetValsD rest

end

/-! ## Dictionary lemmas -/

theorem dlookup_dinsert_ne (d : Dict) (k k' : String) (v : Val) (h : k' ≠ k) :
    dlookup (dinsert d k v) k' = dlookup d k' := by
  induction d with
  | nil => simp [dinsert, dlookup, Ne.symm h]
  | cons p rest ih =>
      obtain ⟨pk, pv⟩ := p
      by_cases hpk : pk = k
      · subst hpk
        simp [dinsert, dlookup, Ne.symm h]
      · simp [dinsert, hpk, dlookup, ih]

theorem dinsert_absent (d : Dict) (k : String) (v : Val) (h : dlookup d k = none) :
    dinsert d k v = d ++ [(k, v)] := by
  induction d with
  | nil => simp [dinsert]
  | cons p rest ih =>
      obtain ⟨pk, pv⟩ := p
      rw [dlookup] at h
      by_cases hpk : pk = k
      · simp [hpk] at h
      · simp [dinsert, hpk]
        exact ih (by simpa [hpk] using h)

theorem dremove_absent (d : Dict) (k : String) (h : dlookup d k = none) :
    dremove d k = d := by
  induction d with
  | nil => simp [dremove]
  | cons p rest ih =>
      obtain ⟨pk, pv⟩ := p
      rw [dlookup] at h
      by_cases hpk : pk = k
      · simp [hpk] at h
      · simp [dremove, hpk]
        exact ih (by simpa [hpk] using h)

theorem dlookup_append_left_none (d₁ d₂ : Dict) (k : String) (h : dlookup d₁ k = none) :
    dlookup (d₁ ++ d₂) k = dlookup d₂ k := by
  induction d₁ with
  | nil => simp
  | cons p rest ih =>
      obtain ⟨pk, pv⟩ := p
      rw [dlookup] at h
      by_cases hpk : pk = k
      · simp [hpk] at h
      · simp [dlookup, hpk]
        exact ih (by simpa [hpk] using h)

/-- When `popMeta` succeeds it returns exactly the dict without its metadata
entry, paired with `metaOfD`. -/
theorem popMeta_eq (d : Dict) (h : (popMeta d).isSome) :
    popMeta d = some (dremove d META, metaOfD d) := by
  rw [popMeta] at h ⊢
  rw [metaOfD]
  cases hl : dlookup d META with
  | none => simp [dremove_absent d META hl]
  | some v =>
      rw [hl] at h
      cases v <;> simp_all

/-- A key in a non-metadata entry of the list. -/
theorem mem_nonMetaKeys {p : String × Val} {kvs : Dict} (hp : p ∈ kvs) (hk : p.1 ≠ META) :
    p.1 ∈ nonMetaKeys kvs := by
  rw [nonMetaKeys]
  exact List.mem_map_of_mem Prod.fst (List.mem_filter.mpr ⟨hp, by simpa using hk⟩)

theorem nodupStr_head_ne {k : String} {ks : List String} (h : nodupStr (k :: ks)) :
    ∀ x ∈ ks, x ≠ k := by
  intro x hx hxk
  subst hxk
  rw [nodupStr] at h
  simp at h
  exact h.1 hx

/-! ## Python-set membership lemmas -/

theorem memH_congr {x y : Val} (h : hashKey x = hashKey y) (l : List Val) :
    memH x l = memH y l := by
  induction l with
  | nil => rfl
  | cons z zs ih => simp [memH, h, ih]

theorem memH_append (x : Val) (a b : List Val) :
    memH x (a ++ b) = (memH x a || memH x b) := by
  induction a with
  | nil => simp [memH]
  | cons z zs ih => simp [memH, ih, Bool.or_assoc]

theorem memH_dedupH (x : Val) (l : List Val) : memH x (dedupH l) = memH x l := by
  induction l with
  | nil => rfl
  | cons y ys ih =>
      rw [dedupH]
      by_cases hmem : memH y ys = true
      · rw [if_pos hmem, ih, memH]
        by_cases hxy : hashKey y = hashKey x
        · have hx : memH x ys = true := (memH_congr hxy.symm ys).trans hmem
          simp [hxy, hx]
        · have hne : (hashKey y == hashKey x) = false := beq_eq_false_iff_ne.mpr hxy
          simp [hne]
      · rw [if_neg hmem, memH, memH, ih]

theorem memH_interH (x : Val) (a b : List Val) :
    memH x (interH a b) = (memH x a && memH x b) := by
  induction a with
  | nil => simp [interH, memH]
  | cons y ys ih =>
      rw [interH, List.filter_cons]
      rw [interH] at ih
      by_cases hyb : memH y b = true
      · rw [if_pos (by exact hyb), memH, ih, memH]
        by_cases hxy : hashKey y = hashKey x
        · have hb : memH x b = true := (memH_congr hxy.symm b).trans hyb
          simp [hxy, hb]
        · have hne : (hashKey y == hashKey x) = false := beq_eq_false_iff_ne.mpr hxy
          simp [hne]
      · rw [if_neg (by exact hyb), ih, memH]
        by_cases hxy : hashKey y = hashKey x
        · have hb : memH x b = false := (memH_congr hxy.symm b).trans (Bool.eq_false_iff.mpr hyb)
          simp [hxy, hb]
        · have hne : (hashKey y == hashKey x) = false := beq_eq_false_iff_ne.mpr hxy
          simp [hne]

theorem memH_filter_not (x : Val) (a b : List Val) :
    memH x (b.filter (fun y => !memH y a)) = (memH x b && !memH x a) := by
  induction b with
  | nil => simp [memH]
  | cons y ys ih =>
      rw [List.filter_cons]
      by_cases hya : memH y a = true
      · rw [if_neg (by simp [hya]), ih, memH]
        by_cases hxy : hashKey y = hashKey x
        · have ha : memH x a = true := (memH_congr hxy.symm a).trans hya
          simp [hxy, ha]
        · have hne : (hashKey y == hashKey x) = false := beq_eq_false_iff_ne.mpr hxy
          simp [hne]
      · have hya' : memH y a = false := Bool.eq_false_iff.mpr hya
        rw [if_pos (by simp [hya']), memH, ih, memH]
        by_cases hxy : hashKey y = hashKey x
        · have ha : memH x a = false := (memH_congr hxy.symm a).trans hya'
          simp [hxy, ha]
        · have hne : (hashKey y == hashKey x) = false := beq_eq_false_iff_ne.mpr hxy
          simp [hne]

theorem memH_unionH (x : Val) (a b : List Val) :
    memH x (unionH a b) = (memH x a || memH x b) := by
  rw [unionH, memH_append, memH_filter_not]
  cases memH x a <;> cases memH x b <;> rfl

/-! ## The merge loop over a base disjoint from the update -/

/-- Uniform unfolding of one iteration of the merge loop. -/
theorem udsGo_cons (nt : Bool) (meta d : Dict) (k : String) (v : Val)
    (rest : List (String × Val)) :
    udsGo nt meta d ((k, v) :: rest) =
      (if k = META then udsGo nt meta d rest
       else
         match v with
         | .dict _ => do
             let sub ← uds nt ((dlookup d k).getD (.dict [])) v
             udsGo nt meta (dinsert d k sub) rest
         | .list _ => do
             let r ← combineV (stratName meta k) ((dlookup d k).getD (.list [])) v
             udsGo nt meta (dinsert d k r) rest
         | .set _ => do
             let r ← combineV (stratName meta k) ((dlookup d k).getD (.list [])) v
             udsGo nt meta (dinsert d k r) rest
         | _ =>
             if nt && (dlookup d k).isSome && pyEq v .null then udsGo nt meta d rest
             else udsGo nt meta (dinsert d k v) rest) := by
  by_cases hk : k = META <;> cases v <;> simp only [udsGo, hk, if_true, if_false]

theorem nonMetaKeys_cons_meta (v : Val) (rest : Dict) :
    nonMetaKeys ((META, v) :: rest) = nonMetaKeys rest := by
  simp [nonMetaKeys]

theorem nonMetaKeys_cons {k : String} (v : Val) (rest : Dict) (h : k ≠ META) :
    nonMetaKeys ((k, v) :: rest) = k :: nonMetaKeys rest := by
  simp [nonMetaKeys, List.filter_cons, h]

theorem stripUnitD_cons_meta (v : Val) (rest : Dict) :
    stripUnitD ((META, v) :: rest) = stripUnitD rest := by
  rw [stripUnitD]
  simp

theorem stripUnitD_cons {k : String} (v : Val) (rest : Dict) (h : k ≠ META) :
    stripUnitD ((k, v) :: rest) = (k, stripUnit v) :: stripUnitD rest := by
  rw [stripUnitD]
  simp [beq_eq_false_iff_ne.mpr h]

/-- Running the merge loop when the base holds none of the update's
non-metadata keys appends every entry in order, with mapping values merged
into an empty mapping (hence metadata-stripped) and list values reproduced by
`concat`-on-empty or `replace`. -/
theorem udsGo_unit (nt : Bool) :
    ∀ (n : Nat) (rest : List (String × Val)) (meta d : Dict),
      sizeOf rest ≤ n →
      (∀ p ∈ rest, p.1 ≠ META → dlookup d p.1 = none) →
      nodupStr (nonMetaKeys rest) = true →
      unitOKD meta rest = true →
      udsGo nt meta d rest = some (d ++ stripUnitD rest) := by
  intro n
  induction n using Nat.strong_induction_on with
  | _ n ih =>
    intro rest meta d hsize habs hnd hok
    cases rest with
    | nil => simp [udsGo, stripUnitD]
    | cons p rest' =>
      obtain ⟨k, v⟩ := p
      have hsz : sizeOf rest' < n := by
        have h1 : sizeOf rest' < sizeOf ((k, v) :: rest') := by
          simp only [List.cons.sizeOf_spec]
          omega
        omega
      by_cases hk : k = META
      · subst hk
        rw [nonMetaKeys_cons_meta] at hnd
        replace hok : unitOKD meta rest' = true := by
          cases v <;> simp only [unitOKD, beq_self_eq_true, if_true, Bool.true_and] at hok <;>
            first
              | exact hok
              | exact hok.2
        have htail := ih _ hsz rest' meta d (le_refl _)
          (fun p hp => habs p (List.mem_cons_of_mem _ hp)) hnd hok
        rw [udsGo_cons, if_pos rfl, stripUnitD_cons_meta]
        exact htail
      · have hkb : (k == META) = false := beq_eq_false_iff_ne.mpr hk
        have hdk : dlookup d k = none := habs (k, v) (List.mem_cons_self _ _) hk
        rw [nonMetaKeys_cons v rest' hk] at hnd
        have hne := nodupStr_head_ne hnd
        rw [nodupStr] at hnd
        simp only [Bool.and_eq_true] at hnd
        have hstep : ∀ (x : Val), ∀ p ∈ rest', p.1 ≠ META →
            dlookup (d ++ [(k, x)]) p.1 = none := by
          intro x p hp hpm
          rw [dlookup_append_left_none _ _ _ (habs p (List.mem_cons_of_mem _ hp) hpm)]
          rw [dlookup]
          simp [Ne.symm (hne p.1 (mem_nonMetaKeys hp hpm)), dlookup]
        have happ : ∀ (x : Val),
            (d ++ [(k, x)]) ++ stripUnitD rest' = d ++ ((k, x) :: stripUnitD rest') := by
          intro x
          simp
        cases v with
        | str s =>
            simp only [unitOKD, hkb, Bool.false_eq_true, if_false, Bool.true_and] at hok
            rw [udsGo_cons, if_neg hk, stripUnitD_cons _ rest' hk]
            simp only [hdk, Option.isSome_none, Bool.and_false, Bool.false_and,
              Bool.false_eq_true, if_false, dinsert_absent d k _ hdk]
            rw [ih _ hsz rest' meta _ (le_refl _) (hstep _) hnd.2 hok, happ]
            rfl
        | int i =>
            simp only [unitOKD, hkb, Bool.false_eq_true, if_false, Bool.true_and] at hok
            rw [udsGo_cons, if_neg hk, stripUnitD_cons _ rest' hk]
            simp only [hdk, Option.isSome_none, Bool.and_false, Bool.false_and,
              Bool.false_eq_true, if_false, dinsert_absent d k _ hdk]
            rw [ih _ hsz rest' meta _ (le_refl _) (hstep _) hnd.2 hok, happ]
            rfl
        | bool b =>
            simp only [unitOKD, hkb, Bool.false_eq_true, if_false, Bool.true_and] at hok
            rw [udsGo_cons, if_neg hk, stripUnitD_cons _ rest' hk]
            simp only [hdk, Option.isSome_none, Bool.and_false, Bool.false_and,
              Bool.false_eq_true, if_false, dinsert_absent d k _ hdk]
            rw [ih _ hsz rest' meta _ (le_refl _) (hstep _) hnd.2 hok, happ]
            rfl
        | null =>
            simp only [unitOKD, hkb, Bool.false_eq_true, if_false, Bool.true_and] at hok
            rw [udsGo_cons, if_neg hk, stripUnitD_cons _ rest' hk]
            simp only [hdk, Option.isSome_none, Bool.and_false, Bool.false_and,
              Bool.false_eq_true, if_false, dinsert_absent d k _ hdk]
            rw [ih _ hsz rest' meta _ (le_refl _) (hstep _) hnd.2 hok, happ]
            rfl
        | set xs =>
            simp only [unitOKD, hkb, Bool.false_eq_true, if_false, Bool.false_and] at hok
        | list xs =>
            simp only [unitOKD, hkb, Bool.false_eq_true, if_false, Bool.and_eq_true] at hok
            obtain ⟨hokv, hokrest⟩ := hok
            rw [udsGo_cons, if_neg hk, stripUnitD_cons _ rest' hk, hdk]
            split at hokv
            · rename_i heq
              rw [heq]
              simp only [combineV, Option.getD_none, List.nil_append, Option.bind_eq_bind,
                Option.some_bind, dinsert_absent d k _ hdk]
              rw [ih _ hsz rest' meta _ (le_refl _) (hstep _) hnd.2 hokrest, happ]
              rfl
            · rename_i heq
              rw [heq]
              simp only [combineV, Option.getD_none, Option.bind_eq_bind,
                Option.some_bind, dinsert_absent d k _ hdk]
              rw [ih _ hsz rest' meta _ (le_refl _) (hstep _) hnd.2 hokrest, happ]
              rfl
            · exact absurd hokv (by simp)
        | dict kvs2 =>
            simp only [unitOKD, hkb, Bool.false_eq_true, if_false, Bool.and_eq_true] at hok
            obtain ⟨hokv, hokrest⟩ := hok
            have hsz2 : sizeOf kvs2 < n := by
              have h2 : sizeOf kvs2 < sizeOf ((k, Val.dict kvs2) :: rest') := by
                simp only [List.cons.sizeOf_spec, Prod.mk.sizeOf_spec, Val.dict.sizeOf_spec]
                omega
              omega
            rw [unitOK] at hokv
            simp only [Bool.and_eq_true] at hokv
            obtain ⟨⟨hpop2, hnd2⟩, hok2⟩ := hokv
            have huds : uds nt (.dict []) (.dict kvs2)
                = some (.dict (stripUnitD kvs2)) := by
              have hpe : popMeta ([] : Dict) = some ([], []) := rfl
              rw [uds, popMeta_eq kvs2 hpop2]
              simp only [hpe]
              rw [ih _ hsz2 kvs2 (metaMerge [] (metaOfD kvs2)) [] (le_refl _)
                (by intro p hp hpm; rfl) hnd2 hok2]
              simp
            rw [udsGo_cons, if_neg hk, stripUnitD_cons _ rest' hk]
            simp only [hdk, Option.getD_none, huds, Option.bind_eq_bind, Option.some_bind,
              dinsert_absent d k _ hdk]
            rw [ih _ hsz rest' meta _ (le_refl _) (hstep _) hnd.2 hokrest, happ]
            rfl

/-! ## Claim C2 -/

/-- C2 counterexample: with update metadata selecting `keep` for a
sequence-valued key, `merge(\x7b\x7d, B)` combines against the empty base
sequence and returns `\x7b'a': []\x7d`, not `B` after metadata-stripping
(`\x7b'a': [1]\x7d`). -/
theorem C2_counterexample :
    uds false (.dict []) (.dict [("a", .list [.int 1]), (META, .dict [("a", .str "keep")])])
      = some (.dict [("a", .list [])]) ∧
    stripUnit (.dict [("a", .list [.int 1]), (META, .dict [("a", .str "keep")])])
      = .dict [("a", .list [.int 1])] ∧
    Val.dict [("a", .list [])] ≠ Val.dict [("a", .list [.int 1])] := by
  refine ⟨rfl, rfl, ?_⟩
  simp

/-- C2 (amended): `merge(copy(A), \x7b\x7d)` equals `A` with its top-level
metadata entry removed (whenever `A`'s metadata is well formed), and
`merge(\x7b\x7d, B)` equals `B` metadata-stripped along mapping chains
provided every sequence-valued key reachable through mapping values of `B` is
governed by the default `concat` or by `replace`; for `and`, `or` or `keep`
the update sequence is combined against an empty base sequence, so equality
fails there. -/
theorem C2_merge_unit_laws :
    (∀ (nt : Bool) (dkv : Dict), (popMeta dkv).isSome = true →
        uds nt (.dict dkv) (.dict []) = some (.dict (dremove dkv META))) ∧
    (∀ (nt : Bool) (B : Val), unitOK B = true →
        uds nt (.dict []) B = some (stripUnit B)) := by
  constructor
  · intro nt dkv hpop
    have hpe : popMeta ([] : Dict) = some ([], []) := rfl
    rw [uds, popMeta_eq dkv hpop]
    simp only [hpe]
    simp [udsGo]
  · intro nt B hB
    cases B with
    | dict kvs =>
        rw [unitOK] at hB
        simp only [Bool.and_eq_true] at hB
        obtain ⟨⟨hpop, hnd⟩, hok⟩ := hB
        have hpe : popMeta ([] : Dict) = some ([], []) := rfl
        rw [uds, popMeta_eq kvs hpop]
        simp only [hpe]
        rw [udsGo_unit nt (sizeOf kvs) kvs (metaMerge [] (metaOfD kvs)) [] (le_refl _)
          (by intro p hp hpm; rfl) hnd hok]
        simp [stripUnit]
    | str s => simp [unitOK] at hB
    | int i => simp [unitOK] at hB
    | bool b => simp [unitOK] at hB
    | null => simp [unitOK] at hB
    | list xs => simp [unitOK] at hB
    | set xs => simp [unitOK] at hB

/-- Closed instance of `C2_merge_unit_laws`: a base with `and`-metadata is
returned with the metadata entry dropped, and an update carrying `replace`
metadata for its sequence key comes back metadata-stripped. -/
theorem C2_merge_unit_laws_witness :
    uds false (.dict [("x", .int 1), (META, .dict [("a", .str "and")])]) (.dict [])
      = some (.dict [("x", .int 1)]) ∧
    uds false (.dict []) (.dict [("a", .list [.int 1]), (META, .dict [("a", .str "replace")])])
      = some (.dict [("a", .list [.int 1])]) := by
  constructor
  · exact (C2_merge_unit_laws.1 false [("x", .int 1), (META, .dict [("a", .str "and")])]
      (by rfl)).trans (by rfl)
  · exact (C2_merge_unit_laws.2 false
      (.dict [("a", .list [.int 1]), (META, .dict [("a", .str "replace")])])
      (by rfl)).trans (by rfl)

/-! ## Claim C3 -/

/-- C3: the invariant fails on the code — the merge only strips the metadata
key from the top level of its operands and from mapping pairs the recursion
visits; a metadata entry inside an untouched base subtree, or inside a
mapping that is an element of a sequence value, survives into the result. -/
theorem C3_meta_key_survives :
    uds false
        (.dict [("a", .dict [(META, .dict [("x", .str "and")]), ("y", .int 1)])])
        (.dict [])
      = some (.dict [("a", .dict [(META, .dict [("x", .str "and")]), ("y", .int 1)])]) ∧
    containsMeta
        (.dict [("a", .dict [(META, .dict [("x", .str "and")]), ("y", .int 1)])]) = true ∧
    uds false (.dict []) (.dict [("b", .list [.dict [(META, .dict [])]])])
      = some (.dict [("b", .list [.dict [(META, .dict [])]])]) ∧
    containsMeta (.dict [("b", .list [.dict [(META, .dict [])]])]) = true :=
  ⟨rfl, rfl, rfl, rfl⟩

/-! ## Claim C4 -/

/-- C4 counterexample: with `\x7b'c': '$\x7ba\x7d_$\x7bb\x7d', 'a':
'$\x7bb\x7d', 'b': 'Z'\x7d`, the text `$\x7bb\x7d` substituted for
`$\x7ba\x7d` is re-expanded by the later global replacement of the original
token `b`, giving `'Z_Z'` where the claim requires the inner token to stay
literal (`'$\x7bb\x7d_Z'`). -/
theorem C4_counterexample :
    rtv (.dict [("c", .str "$\x7ba\x7d_$\x7bb\x7d"), ("a", .str "$\x7bb\x7d"),
        ("b", .str "Z")]) []
      = some (.dict [("c", .str "Z_Z"), ("a", .str "Z"), ("b", .str "Z")]) ∧
    Val.str "Z_Z" ≠ Val.str "$\x7bb\x7d_Z" := by
  constructor
  · simp [rtv, rtvGo, replT, findToks, splitAtBrace, replChars, replGo, tokPat,
      chainGet, dlookup, dinsert, pyStr, META]
  · simp

/-- C4 (amended): substitution is single-pass over the token names found in
the original string — the replacement text is never re-scanned for new token
names, so a token whose name is not among the original string's tokens stays
literal; but each found name is replaced globally in sequence, so text
introduced by an earlier substitution is still subject to the replacement of
a later-listed original token name. -/
theorem C4_single_pass :
    rtv (.dict [("c", .str "$\x7ba\x7d"), ("a", .str "$\x7bb\x7d"), ("b", .str "Z")]) []
      = some (.dict [("c", .str "$\x7bb\x7d"), ("a", .str "Z"), ("b", .str "Z")]) ∧
    rtv (.dict [("c", .str "$\x7ba\x7d_$\x7bb\x7d"), ("a", .str "$\x7bb\x7d"),
        ("b", .str "Z")]) []
      = some (.dict [("c", .str "Z_Z"), ("a", .str "Z"), ("b", .str "Z")]) := by
  constructor
  · simp [rtv, rtvGo, replT, findToks, splitAtBrace, replChars, replGo, tokPat,
      chainGet, dlookup, dinsert, pyStr, META]
  · simp [rtv, rtvGo, replT, findToks, splitAtBrace, replChars, replGo, tokPat,
      chainGet, dlookup, dinsert, pyStr, META]

/-! ## Claims C5 and C7 -/

/-- C5 counterexample: with `base['a'] = 1` (a scalar) and `update['a']` a
Mapping, the merge raises (the scalar is passed to the recursive call, whose
`pop` fails) instead of discarding it and merging with an empty Mapping as
the claim states. -/
theorem C5_counterexample :
    uds false (.dict [("a", .int 1)]) (.dict [("a", .dict [])]) = none ∧
    (none : Option Val) ≠ some (.dict [("a", .dict [])]) :=
  ⟨rfl, by simp⟩

/-- C5 (amended): when `update[k]` is a Mapping the code recursively merges
it with `base.get(k, \x7b\x7d)` — the empty Mapping is used only when `k` is
absent from the base; a present non-Mapping base value is passed to the
recursive call itself, which raises on it rather than discarding it. -/
theorem C5_submap_merge :
    (∀ (nt : Bool) (d : Dict) (k : String) (m : Dict),
        dlookup d META = none → k ≠ META → dlookup d k = none →
        uds nt (.dict d) (.dict [(k, .dict m)])
          = (uds nt (.dict []) (.dict m)).map (fun r => .dict (dinsert d k r))) ∧
    (∀ (nt : Bool) (d : Dict) (k : String) (m : Dict) (b : Val),
        dlookup d META = none → k ≠ META → dlookup d k = some b → isDict b = false →
        uds nt (.dict d) (.dict [(k, .dict m)]) = none) := by
  constructor
  · intro nt d k m hdm hk hdk
    have hpd : popMeta d = some (d, []) := by rw [popMeta, hdm]
    have hl : dlookup [(k, Val.dict m)] META = none := by simp [dlookup, hk]
    have hpu : popMeta [(k, Val.dict m)] = some ([(k, Val.dict m)], []) := by
      rw [popMeta, hl]
    generalize hX : uds nt (.dict []) (.dict m) = X
    simp only [uds, hpd, hpu]
    rw [udsGo_cons, if_neg hk]
    simp only [hdk, Option.getD_none]
    rw [hX]
    cases X with
    | none => simp
    | some r => simp [udsGo]
  · intro nt d k m b hdm hk hdk hb
    have hpd : popMeta d = some (d, []) := by rw [popMeta, hdm]
    have hl : dlookup [(k, Val.dict m)] META = none := by simp [dlookup, hk]
    have hpu : popMeta [(k, Val.dict m)] = some ([(k, Val.dict m)], []) := by
      rw [popMeta, hl]
    simp only [uds, hpd, hpu]
    rw [udsGo_cons, if_neg hk]
    rw [hdk]
    simp only [Option.getD_some]
    have hbase : uds nt b (.dict m) = none := by
      cases b <;> first | rfl | simp [isDict] at hb
    simp [hbase]

/-- Closed instance of `C5_submap_merge`: a mapping update under a fresh key
merges against the empty mapping; a mapping update over a scalar base raises. -/
theorem C5_submap_merge_witness :
    uds false (.dict [("z", .int 9)]) (.dict [("a", .dict [("w", .int 2)])])
      = some (.dict [("z", .int 9), ("a", .dict [("w", .int 2)])]) ∧
    uds true (.dict [("a", .int 1)]) (.dict [("a", .dict [("w", .int 2)])]) = none := by
  constructor
  · exact (C5_submap_merge.1 false [("z", .int 9)] "a" [("w", .int 2)] rfl (by decide)
      rfl).trans (by rfl)
  · exact C5_submap_merge.2 true [("a", .int 1)] "a" [("w", .int 2)] (.int 1) rfl
      (by decide) rfl rfl

/-- One-entry scalar step of the merge loop: skipped exactly when the
transparency option is on, the key is present, and the value equals `None`. -/
theorem udsGo_single_scalar (nt : Bool) (meta d : Dict) (k : String) (v : Val)
    (hk : k ≠ META) (hv : isScalar v = true) :
    udsGo nt meta d [(k, v)]
      = some (if nt && (dlookup d k).isSome && pyEq v .null then d else dinsert d k v) := by
  cases v <;>
    first
      | (rw [udsGo_cons, if_neg hk]
         simp only [udsGo]
         split <;> rfl)
      | simp [isScalar] at hv

/-- C7: for a scalar update value, the base value is retained exactly when
`none_values_are_transparent` is set, the key already exists in the base, and
the update value is `None`; otherwise the key is created or overwritten. -/
theorem C7_scalar_overwrite :
    ∀ (nt : Bool) (d : Dict) (k : String) (v : Val),
      dlookup d META = none → k ≠ META → isScalar v = true →
      uds nt (.dict d) (.dict [(k, v)])
        = some (.dict (if nt && (dlookup d k).isSome && pyEq v .null then d
                       else dinsert d k v)) := by
  intro nt d k v hdm hk hv
  have hpd : popMeta d = some (d, []) := by rw [popMeta, hdm]
  have hl : dlookup [(k, v)] META = none := by simp [dlookup, hk]
  have hpu : popMeta [(k, v)] = some ([(k, v)], []) := by rw [popMeta, hl]
  simp only [uds, hpd, hpu]
  rw [udsGo_single_scalar nt _ d k v hk hv]
  split <;> rfl

/-- Closed instance of `C7_scalar_overwrite`: the two doctest cases
`merge(\x7b'a': 1\x7d, \x7b'a': None\x7d)` with the flag off and on. -/
theorem C7_scalar_overwrite_witness :
    uds false (.dict [("a", .int 1)]) (.dict [("a", .null)]) = some (.dict [("a", .null)]) ∧
    uds true (.dict [("a", .int 1)]) (.dict [("a", .null)]) = some (.dict [("a", .int 1)]) := by
  constructor
  · exact (C7_scalar_overwrite false [("a", .int 1)] "a" .null rfl (by decide) rfl).trans
      (by rfl)
  · exact (C7_scalar_overwrite true [("a", .int 1)] "a" .null rfl (by decide) rfl).trans
      (by rfl)

/-! ## Claim C6 -/

/-- C6: the per-key combine strategy for a sequence-valued key is looked up
in the metadata merged from base and update (update's entry overriding the
base's on collision), defaulting to `concat` when the key is absent from the
metadata; `concat` appends the update elements after the base elements
preserving order and duplicates, `keep` returns the base sequence, `replace`
returns the update sequence, and `and`/`or` return the set
intersection/union of the elements (characterised here by membership, since
order and duplicate count are not preserved). -/
theorem C6_combine_strategies :
    (∀ (as bs : List Val),
        uds false (.dict [("a", .list as)]) (.dict [("a", .list bs)])
          = some (.dict [("a", .list (as ++ bs))])) ∧
    (∀ (as bs : List Val),
        uds false (.dict [("a", .list as)])
            (.dict [("a", .list bs), (META, .dict [("b", .str "and")])])
          = some (.dict [("a", .list (as ++ bs))])) ∧
    (∀ (as bs : List Val),
        uds false (.dict [("a", .list as)])
            (.dict [("a", .list bs), (META, .dict [("a", .str "keep")])])
          = some (.dict [("a", .list as)])) ∧
    (∀ (as bs : List Val),
        uds false (.dict [("a", .list as)])
            (.dict [("a", .list bs), (META, .dict [("a", .str "replace")])])
          = some (.dict [("a", .list bs)])) ∧
    (∀ (as bs : List Val),
        uds false (.dict [("a", .list as), (META, .dict [("a", .str "keep")])])
            (.dict [("a", .list bs), (META, .dict [("a", .str "replace")])])
          = some (.dict [("a", .list bs)])) ∧
    (∀ (as bs : List Val),
        as.all (fun x => (hashKey x).isSome) = true →
        bs.all (fun x => (hashKey x).isSome) = true →
        uds false (.dict [("a", .list as)])
            (.dict [("a", .list bs), (META, .dict [("a", .str "and")])])
          = some (.dict [("a", .set (interH (dedupH as) (dedupH bs)))]) ∧
        ∀ x : Val, memH x (interH (dedupH as) (dedupH bs)) = (memH x as && memH x bs)) ∧
    (∀ (as bs : List Val),
        as.all (fun x => (hashKey x).isSome) = true →
        bs.all (fun x => (hashKey x).isSome) = true →
        uds false (.dict [("a", .list as)])
            (.dict [("a", .list bs), (META, .dict [("a", .str "or")])])
          = some (.dict [("a", .set (unionH (dedupH as) (dedupH bs)))]) ∧
        ∀ x : Val, memH x (unionH (dedupH as) (dedupH bs)) = (memH x as || memH x bs)) := by
  refine ⟨?_, ?_, ?_, ?_, ?_, ?_, ?_⟩
  · intro as bs
    simp [uds, udsGo, popMeta, dlookup, dremove, metaMerge, metaOfD, dinsert, stratName,
      combineV, META]
  · intro as bs
    simp [uds, udsGo, popMeta, dlookup, dremove, metaMerge, metaOfD, dinsert, stratName,
      combineV, META]
  · intro as bs
    simp [uds, udsGo, popMeta, dlookup, dremove, metaMerge, metaOfD, dinsert, stratName,
      combineV, META]
  · intro as bs
    simp [uds, udsGo, popMeta, dlookup, dremove, metaMerge, metaOfD, dinsert, stratName,
      combineV, META]
  · intro as bs
    simp [uds, udsGo, popMeta, dlookup, dremove, metaMerge, metaOfD, dinsert, stratName,
      combineV, META]
  · intro as bs ha hb
    constructor
    · simp [uds, udsGo, popMeta, dlookup, dremove, metaMerge, metaOfD, dinsert, stratName,
        combineV, toPySet, META, ha, hb]
    · intro x
      rw [memH_interH, memH_dedupH, memH_dedupH]
  · intro as bs ha hb
    constructor
    · simp [uds, udsGo, popMeta, dlookup, dremove, metaMerge, metaOfD, dinsert, stratName,
        combineV, toPySet, META, ha, hb]
    · intro x
      rw [memH_unionH, memH_dedupH, memH_dedupH]

/-- Closed instance of `C6_combine_strategies` at the doctest inputs
`[1,2,3]` and `[3,4,5]`: `and` gives the set `\x7b3\x7d`, `or` gives the set
`\x7b1,2,3,4,5\x7d`. -/
theorem C6_combine_strategies_witness :
    uds false (.dict [("a", .list [.int 1, .int 2, .int 3])])
        (.dict [("a", .list [.int 3, .int 4, .int 5]), (META, .dict [("a", .str "and")])])
      = some (.dict [("a", .set [.int 3])]) ∧
    uds false (.dict [("a", .list [.int 1, .int 2, .int 3])])
        (.dict [("a", .list [.int 3, .int 4, .int 5]), (META, .dict [("a", .str "or")])])
      = some (.dict [("a", .set [.int 1, .int 2, .int 3, .int 4, .int 5])]) := by
  constructor
  · exact ((C6_combine_strategies.2.2.2.2.2.1 [.int 1, .int 2, .int 3]
      [.int 3, .int 4, .int 5] (by rfl) (by rfl)).1).trans (by rfl)
  · exact ((C6_combine_strategies.2.2.2.2.2.2 [.int 1, .int 2, .int 3]
      [.int 3, .int 4, .int 5] (by rfl) (by rfl)).1).trans (by rfl)

/-! ## Claim C9 -/

theorem foldlM_uds_append (l1 l2 : List Val) (a : Val) :
    (l1 ++ l2).foldlM (uds false) a
      = (l1.foldlM (uds false) a).bind (fun b => l2.foldlM (uds false) b) := by
  induction l1 generalizing a with
  | nil => simp
  | cons x xs ih =>
      rw [List.cons_append, List.foldlM_cons, List.foldlM_cons]
      cases uds false a x <;> simp [ih]

/-- The nested folder/name loops equal one fold over the flattened fragment
sequence. -/
theorem overlay_fold_flat (fs : String → String → Option Val) (inner : List String) :
    ∀ (folders : List String) (acc : Val),
      folders.foldlM
        (fun a folder => inner.foldlM (fun a2 name => uds false a2 (getData fs folder name)) a)
        acc
      = (folders.flatMap (fun folder => inner.map (getData fs folder))).foldlM
          (uds false) acc := by
  intro folders
  induction folders with
  | nil => intro acc; rfl
  | cons f fl ih =>
      intro acc
      rw [List.foldlM_cons, List.flatMap_cons, foldlM_uds_append, List.foldlM_map]
      cases inner.foldlM (fun a2 name => uds false a2 (getData fs f name)) acc <;>
        simp [ih]

/-- C9: the overlay resolver merges fragments exactly in the spec's flat
traversal order — current folder then each subfolder, and within a folder the
default fragment name then each given name — with absent fragments
contributing empty mappings and later fragments merged over the accumulator;
on the spec's example filesystem, `get(names=['prod'])` yields
`\x7b'x': 2\x7d`. -/
theorem C9_overlay_order :
    (∀ (fs : String → String → Option Val) (names includeSubFolders : List String),
        overlayGet fs names includeSubFolders = overlaySpecGet fs names includeSubFolders) ∧
    overlayGet
        (fun folder name =>
          if folder = "" ∧ name = "_default" then some (.dict [("x", .int 1)])
          else if folder = "" ∧ name = "prod" then some (.dict [("x", .int 2)])
          else none)
        ["prod"] []
      = some (.dict [("x", .int 2)]) := by
  constructor
  · intro fs names includeSubFolders
    rw [overlayGet, overlaySpecGet, overlayFragments]
    exact overlay_fold_flat fs ("_default" :: names) ("" :: includeSubFolders) (.dict [])
  · rfl

/-! ## Claim C10 -/

/-- C10: the template resolver's sequence branch substitutes only string
elements — `_replace_template` returns every non-string value unchanged, so
mappings (and anything else non-string) that are elements of a sequence keep
their `$\x7b...\x7d` tokens literally. -/
theorem C10_sequence_frame :
    (∀ (chain : Chain) (v : Val), isStr v = false → replT chain v = v) ∧
    rtv (.dict [("a", .list [.dict [("x", .str "$\x7bb\x7d")], .int 5, .str "$\x7bb\x7d"]),
        ("b", .str "Z")]) []
      = some (.dict [("a", .list [.dict [("x", .str "$\x7bb\x7d")], .int 5, .str "Z"]),
        ("b", .str "Z")]) := by
  constructor
  · intro chain v hv
    cases v <;> first | rfl | simp [isStr] at hv
  · simp [rtv, rtvGo, replT, findToks, splitAtBrace, replChars, replGo, tokPat,
      chainGet, dlookup, dinsert, pyStr, META]

/-- Closed instance of `C10_sequence_frame`: a mapping with a token inside
and a number pass through `_replace_template` untouched. -/
theorem C10_sequence_frame_witness :
    replT [] (.dict [("x", .str "$\x7bb\x7d")]) = .dict [("x", .str "$\x7bb\x7d")] ∧
    replT [] (.int 5) = .int 5 :=
  ⟨C10_sequence_frame.1 [] _ rfl, C10_sequence_frame.1 [] _ rfl⟩

/-! ## Claim C8 -/

/-- C8: a `$\x7bname\x7d` token is resolved by exact flat-key lookup in the
scope chain, current mapping first and ancestors nearest-first, substituting
the stringified bound value; a name absent from every scope is replaced by
the empty string, and a dotted name that only partially matches an existing
key is not resolved (no path traversal): it is looked up as the flat key
`"a.b"`, found absent, and replaced by the empty string. -/
theorem C8_token_lookup :
    (∀ (m p : Dict) (v : Val), dlookup m "a" = some v →
        replT [m, p] (.str "x$\x7ba\x7dy") = .str ("x" ++ pyStr v ++ "y")) ∧
    (∀ (m p : Dict) (w : Val), dlookup m "a" = none → dlookup p "a" = some w →
        replT [m, p] (.str "x$\x7ba\x7dy") = .str ("x" ++ pyStr w ++ "y")) ∧
    (∀ (m p : Dict), dlookup m "a" = none → dlookup p "a" = none →
        replT [m, p] (.str "x$\x7ba\x7dy") = .str "xy") ∧
    (∀ (v : Val),
        replT [[("a", .dict [("b", v)])]] (.str "x$\x7ba.b\x7dy") = .str "xy") := by
  have htoks : findToks ("x$\x7ba\x7dy".data) = [['a']] := by
    simp [findToks, splitAtBrace]
  refine ⟨?_, ?_, ?_, ?_⟩
  · intro m p v h
    rw [replT, htoks]
    have hchain : chainGet [m, p] "a" = some v := by rw [chainGet, h]
    simp only [List.foldl_cons, List.foldl_nil, hchain, Option.getD_some]
    apply congrArg
    apply String.ext
    simp only [String.data_append]
    show replChars (tokPat ['a']) (pyStr v).data ("x$\x7ba\x7dy".data) = _
    simp [tokPat, replChars, replGo, List.isPrefixOf]
  · intro m p w hm hp
    rw [replT, htoks]
    have hchain : chainGet [m, p] "a" = some w := by
      rw [chainGet, hm, chainGet, hp]
    simp only [List.foldl_cons, List.foldl_nil, hchain, Option.getD_some]
    apply congrArg
    apply String.ext
    simp only [String.data_append]
    show replChars (tokPat ['a']) (pyStr w).data ("x$\x7ba\x7dy".data) = _
    simp [tokPat, replChars, replGo, List.isPrefixOf]
  · intro m p hm hp
    rw [replT, htoks]
    have hchain : chainGet [m, p] "a" = none := by
      rw [chainGet, hm, chainGet, hp, chainGet]
    simp only [List.foldl_cons, List.foldl_nil, hchain, Option.getD_none]
    apply congrArg
    apply String.ext
    show replChars (tokPat ['a']) (pyStr (.str "")).data ("x$\x7ba\x7dy".data) = "xy".data
    simp [tokPat, replChars, replGo, List.isPrefixOf, pyStr]
  · intro v
    have htoks2 : findToks ("x$\x7ba.b\x7dy".data) = [['a', '.', 'b']] := by
      simp [findToks, splitAtBrace]
    rw [replT, htoks2]
    have hchain : chainGet [[("a", .dict [("b", v)])]] (String.mk ['a', '.', 'b'])
        = none := by
      rw [chainGet]
      have : dlookup [("a", .dict [("b", v)])] (String.mk ['a', '.', 'b']) = none := by
        rw [dlookup]
        simp [dlookup]
      rw [this, chainGet]
    simp only [List.foldl_cons, List.foldl_nil, hchain, Option.getD_none]
    apply congrArg
    apply String.ext
    show replChars (tokPat ['a', '.', 'b']) (pyStr (.str "")).data ("x$\x7ba.b\x7dy".data)
      = "xy".data
    simp [tokPat, replChars, replGo, List.isPrefixOf, pyStr]

/-- Closed instance of `C8_token_lookup`: the current scope shadows the
parent, the parent is consulted when the current scope lacks the name, a name
bound nowhere yields the empty string, and a dotted token is not resolved
through a nested mapping. -/
theorem C8_token_lookup_witness :
    replT [[("a", .int 7)], [("a", .str "P")]] (.str "x$\x7ba\x7dy") = .str "x7y" ∧
    replT [[("q", .int 0)], [("a", .str "P")]] (.str "x$\x7ba\x7dy") = .str "xPy" ∧
    replT [[("q", .int 0)], [("r", .int 1)]] (.str "x$\x7ba\x7dy") = .str "xy" ∧
    replT [[("a", .dict [("b", .str "V")])]] (.str "x$\x7ba.b\x7dy") = .str "xy" := by
  refine ⟨?_, ?_, ?_, ?_⟩
  · exact (C8_token_lookup.1 [("a", .int 7)] [("a", .str "P")] (.int 7) rfl).trans (by rfl)
  · exact (C8_token_lookup.2.1 [("q", .int 0)] [("a", .str "P")] (.str "P") (by rfl)
      (by rfl)).trans (by rfl)
  · exact C8_token_lookup.2.2.1 [("q", .int 0)] [("r", .int 1)] (by rfl) (by rfl)
  · exact C8_token_lookup.2.2.2 (.str "V")

/-! ## Claim C1 -/

/-- C1 counterexample: all three mismatch cases the claim lists as handled by
precedence actually raise — a scalar base under a sequence update (`1 + [2]`
fails), a non-mapping base under a mapping update (`pop` on a list fails in
the recursive call), and a set value produced by an earlier `and` merge
reaching the template resolver's sequence branch (`v[:] = ...` on a set
fails). -/
theorem C1_counterexample :
    uds false (.dict [("a", .int 1)]) (.dict [("a", .list [.int 2])]) = none ∧
    uds false (.dict [("a", .list [.int 1])]) (.dict [("a", .dict [])]) = none ∧
    rtv (.dict [("a", .set [.int 1])]) [] = none :=
  ⟨rfl, rfl, rfl⟩

/-- Uniform unfolding of one iteration of the template-resolver loop. -/
theorem rtvGo_cons (parents : Chain) (d : Dict) (k : String) (v : Val)
    (rest : List (String × Val)) :
    rtvGo parents d ((k, v) :: rest) =
      (match v with
       | .str _ => rtvGo parents (dinsert d k (replT (d :: parents) v)) rest
       | .dict _ => do
           let v' ← rtv v (d :: parents)
           rtvGo parents (dinsert d k v') rest
       | .list xs => rtvGo parents (dinsert d k (.list (xs.map (replT (d :: parents))))) rest
       | .set _ => none
       | _ => rtvGo parents d rest) := by
  cases v <;> rfl

/-- The template-resolver loop never fails when no entry value is a set
(recursively through mapping values). -/
theorem rtvGo_total :
    ∀ (n : Nat) (rest : List (String × Val)) (parents : Chain) (d : Dict),
      sizeOf rest ≤ n → noSetValsD rest = true →
      (rtvGo parents d rest).isSome = true := by
  intro n
  induction n using Nat.strong_induction_on with
  | _ n ih =>
    intro rest parents d hsize hok
    cases rest with
    | nil => simp [rtvGo]
    | cons p rest' =>
      obtain ⟨k, v⟩ := p
      have hsz : sizeOf rest' < n := by
        have h1 : sizeOf rest' < sizeOf ((k, v) :: rest') := by
          simp only [List.cons.sizeOf_spec]
          omega
        omega
      cases v with
      | str s =>
          simp only [noSetValsD, Bool.true_and] at hok
          rw [rtvGo_cons]
          exact ih _ hsz rest' parents _ (le_refl _) hok
      | int i =>
          simp only [noSetValsD, Bool.true_and] at hok
          rw [rtvGo_cons]
          exact ih _ hsz rest' parents _ (le_refl _) hok
      | bool b =>
          simp only [noSetValsD, Bool.true_and] at hok
          rw [rtvGo_cons]
          exact ih _ hsz rest' parents _ (le_refl _) hok
      | null =>
          simp only [noSetValsD, Bool.true_and] at hok
          rw [rtvGo_cons]
          exact ih _ hsz rest' parents _ (le_refl _) hok
      | list xs =>
          simp only [noSetValsD, Bool.true_and] at hok
          rw [rtvGo_cons]
          exact ih _ hsz rest' parents _ (le_refl _) hok
      | set xs => simp [noSetValsD] at hok
      | dict kvs2 =>
          simp only [noSetValsD, Bool.and_eq_true] at hok
          obtain ⟨hv, hrest⟩ := hok
          rw [noSetVals] at hv
          have hsz2 : sizeOf kvs2 < n := by
            have h2 : sizeOf kvs2 < sizeOf ((k, Val.dict kvs2) :: rest') := by
              simp only [List.cons.sizeOf_spec, Prod.mk.sizeOf_spec, Val.dict.sizeOf_spec]
              omega
            omega
          have hin : (rtv (.dict kvs2) (d :: parents)).isSome = true := by
            rw [rtv]
            simp only [Option.isSome_map']
            exact ih _ hsz2 kvs2 (d :: parents) kvs2 (le_refl _) hv
          obtain ⟨r, hr⟩ := Option.isSome_iff_exists.mp hin
          rw [rtvGo_cons]
          simp only [hr, Option.bind_eq_bind, Option.some_bind]
          exact ih _ hsz rest' parents _ (le_refl _) hrest

/-- The merge loop never fails on type-compatible entries: the induction
threads the invariant that pending keys still look up their original base
values. -/
theorem udsGo_total :
    ∀ (n : Nat) (rest : List (String × Val)) (nt : Bool) (meta d d0 : Dict),
      sizeOf rest ≤ n →
      (∀ p ∈ rest, p.1 ≠ META → dlookup d p.1 = dlookup d0 p.1) →
      nodupStr (nonMetaKeys rest) = true →
      compatD meta d0 rest = true →
      (udsGo nt meta d rest).isSome = true := by
  intro n
  induction n using Nat.strong_induction_on with
  | _ n ih =>
    intro rest nt meta d d0 hsize habs hnd hok
    cases rest with
    | nil => simp [udsGo]
    | cons p rest' =>
      obtain ⟨k, v⟩ := p
      have hsz : sizeOf rest' < n := by
        have h1 : sizeOf rest' < sizeOf ((k, v) :: rest') := by
          simp only [List.cons.sizeOf_spec]
          omega
        omega
      by_cases hk : k = META
      · subst hk
        rw [nonMetaKeys_cons_meta] at hnd
        replace hok : compatD meta d0 rest' = true := by
          cases v <;> simp only [compatD, beq_self_eq_true, if_true, Bool.true_and] at hok <;>
            first
              | exact hok
              | exact hok.2
        rw [udsGo_cons, if_pos rfl]
        exact ih _ hsz rest' nt meta d d0 (le_refl _)
          (fun p hp => habs p (List.mem_cons_of_mem _ hp)) hnd hok
      · have hkb : (k == META) = false := beq_eq_false_iff_ne.mpr hk
        have hlk : dlookup d k = dlookup d0 k :=
          habs (k, v) (List.mem_cons_self _ _) hk
        rw [nonMetaKeys_cons v rest' hk] at hnd
        have hne := nodupStr_head_ne hnd
        rw [nodupStr] at hnd
        simp only [Bool.and_eq_true] at hnd
        have hstep : ∀ (x : Val), ∀ p ∈ rest', p.1 ≠ META →
            dlookup (dinsert d k x) p.1 = dlookup d0 p.1 := by
          intro x p hp hpm
          rw [dlookup_dinsert_ne d k p.1 x (hne p.1 (mem_nonMetaKeys hp hpm))]
          exact habs p (List.mem_cons_of_mem _ hp) hpm
        cases v with
        | str s =>
            simp only [compatD, hkb, Bool.false_eq_true, if_false, Bool.true_and] at hok
            rw [udsGo_cons, if_neg hk]
            show (if nt && (dlookup d k).isSome && pyEq (Val.str s) Val.null
                then udsGo nt meta d rest'
                else udsGo nt meta (dinsert d k (Val.str s)) rest').isSome = true
            split
            · exact ih _ hsz rest' nt meta d d0 (le_refl _)
                (fun p hp => habs p (List.mem_cons_of_mem _ hp)) hnd.2 hok
            · exact ih _ hsz rest' nt meta _ d0 (le_refl _) (hstep _) hnd.2 hok
        | int i =>
            simp only [compatD, hkb, Bool.false_eq_true, if_false, Bool.true_and] at hok
            rw [udsGo_cons, if_neg hk]
            show (if nt && (dlookup d k).isSome && pyEq (Val.int i) Val.null
                then udsGo nt meta d rest'
                else udsGo nt meta (dinsert d k (Val.int i)) rest').isSome = true
            split
            · exact ih _ hsz rest' nt meta d d0 (le_refl _)
                (fun p hp => habs p (List.mem_cons_of_mem _ hp)) hnd.2 hok
            · exact ih _ hsz rest' nt meta _ d0 (le_refl _) (hstep _) hnd.2 hok
        | bool b =>
            simp only [compatD, hkb, Bool.false_eq_true, if_false, Bool.true_and] at hok
            rw [udsGo_cons, if_neg hk]
            show (if nt && (dlookup d k).isSome && pyEq (Val.bool b) Val.null
                then udsGo nt meta d rest'
                else udsGo nt meta (dinsert d k (Val.bool b)) rest').isSome = true
            split
            · exact ih _ hsz rest' nt meta d d0 (le_refl _)
                (fun p hp => habs p (List.mem_cons_of_mem _ hp)) hnd.2 hok
            · exact ih _ hsz rest' nt meta _ d0 (le_refl _) (hstep _) hnd.2 hok
        | null =>
            simp only [compatD, hkb, Bool.false_eq_true, if_false, Bool.true_and] at hok
            rw [udsGo_cons, if_neg hk]
            show (if nt && (dlookup d k).isSome && pyEq (Val.null) Val.null
                then udsGo nt meta d rest'
                else udsGo nt meta (dinsert d k (Val.null)) rest').isSome = true
            split
            · exact ih _ hsz rest' nt meta d d0 (le_refl _)
                (fun p hp => habs p (List.mem_cons_of_mem _ hp)) hnd.2 hok
            · exact ih _ hsz rest' nt meta _ d0 (le_refl _) (hstep _) hnd.2 hok
        | set xs =>
            simp only [compatD, hkb, Bool.false_eq_true, if_false, Bool.false_and] at hok
        | list xs =>
            simp only [compatD, hkb, Bool.false_eq_true, if_false, Bool.and_eq_true] at hok
            obtain ⟨hokv, hokrest⟩ := hok
            rw [udsGo_cons, if_neg hk, hlk]
            have hcomb : (combineV (stratName meta k) ((dlookup d0 k).getD (.list []))
                (.list xs)).isSome = true := by
              split at hokv
              · rename_i heq
                rw [heq, combineV]
                rfl
              · rename_i heq
                rw [heq, combineV]
                rfl
              · rename_i heq
                rw [heq]
                cases hl0 : dlookup d0 k with
                | none => simp [combineV]
                | some b0 =>
                    rw [hl0] at hokv
                    cases b0 <;> simp [concatBaseOK] at hokv <;> simp [combineV]
              · rename_i heq
                rw [heq]
                simp only [Bool.and_eq_true] at hokv
                obtain ⟨hxs, hb0⟩ := hokv
                cases hl0 : dlookup d0 k with
                | none => simp [combineV, toPySet, hxs]
                | some b0 =>
                    rw [hl0] at hb0
                    cases b0 <;>
                      first
                        | (simp only [hashListOK] at hb0
                           exact absurd hb0 Bool.false_ne_true)
                        | (simp only [hashListOK] at hb0
                           simp [combineV, toPySet, hxs, hb0])
              · rename_i heq
                rw [heq]
                simp only [Bool.and_eq_true] at hokv
                obtain ⟨hxs, hb0⟩ := hokv
                cases hl0 : dlookup d0 k with
                | none => simp [combineV, toPySet, hxs]
                | some b0 =>
                    rw [hl0] at hb0
                    cases b0 <;>
                      first
                        | (simp only [hashListOK] at hb0
                           exact absurd hb0 Bool.false_ne_true)
                        | (simp only [hashListOK] at hb0
                           simp [combineV, toPySet, hxs, hb0])
              · rename_i heq
                exact absurd hokv (by simp)
            obtain ⟨r, hr⟩ := Option.isSome_iff_exists.mp hcomb
            simp only [hr, Option.bind_eq_bind, Option.some_bind]
            exact ih _ hsz rest' nt meta _ d0 (le_refl _) (hstep _) hnd.2 hokrest
        | dict kvs2 =>
            simp only [compatD, hkb, Bool.false_eq_true, if_false, Bool.and_eq_true] at hok
            obtain ⟨hokv, hokrest⟩ := hok
            have hsz2 : sizeOf kvs2 < n := by
              have h2 : sizeOf kvs2 < sizeOf ((k, Val.dict kvs2) :: rest') := by
                simp only [List.cons.sizeOf_spec, Prod.mk.sizeOf_spec, Val.dict.sizeOf_spec]
                omega
              omega
            have hudsOf : ∀ (bkv : Dict), compat (.dict bkv) (.dict kvs2) = true →
                (uds nt (.dict bkv) (.dict kvs2)).isSome = true := by
              intro bkv hc
              rw [compat] at hc
              simp only [Bool.and_eq_true] at hc
              obtain ⟨⟨⟨hpb, hpu⟩, hndu⟩, hcd⟩ := hc
              rw [uds, popMeta_eq bkv hpb, popMeta_eq kvs2 hpu]
              simp only [Option.isSome_map']
              exact ih _ hsz2 kvs2 nt _ _ _ (le_refl _) (fun p hp hpm => rfl) hndu hcd
            rw [udsGo_cons, if_neg hk, hlk]
            split at hokv
            · rename_i heq
              rw [heq]
              simp only [Option.getD_none]
              obtain ⟨r, hr⟩ := Option.isSome_iff_exists.mp (hudsOf [] hokv)
              simp only [hr, Option.bind_eq_bind, Option.some_bind]
              exact ih _ hsz rest' nt meta _ d0 (le_refl _) (hstep _) hnd.2 hokrest
            · rename_i bkv heq
              rw [heq]
              simp only [Option.getD_some]
              obtain ⟨r, hr⟩ := Option.isSome_iff_exists.mp (hudsOf bkv hokv)
              simp only [hr, Option.bind_eq_bind, Option.some_bind]
              exact ih _ hsz rest' nt meta _ d0 (le_refl _) (hstep _) hnd.2 hokrest
            · rename_i heq
              exact absurd hokv (by simp)

/-- C1 (amended): merge and template-resolve are total on type-compatible
input — mapping update values meeting mapping-or-absent base values, list
update values whose strategy combines without error, scalar updates anywhere,
and no set values where the resolver walks — but the claim's three listed
mismatch cases do raise (see the counterexample): a scalar base under a
sequence update, a non-mapping base under a mapping update, and a set value
reaching the resolver's sequence branch. -/
theorem C1_totality :
    (∀ (nt : Bool) (d u : Val), compat d u = true → (uds nt d u).isSome = true) ∧
    (∀ (kvs : Dict) (parents : Chain), noSetValsD kvs = true →
        (rtv (.dict kvs) parents).isSome = true) := by
  constructor
  · intro nt d u hc
    cases d with
    | dict dkv =>
        cases u with
        | dict ukv =>
            rw [compat] at hc
            simp only [Bool.and_eq_true] at hc
            obtain ⟨⟨⟨hpb, hpu⟩, hndu⟩, hcd⟩ := hc
            rw [uds, popMeta_eq dkv hpb, popMeta_eq ukv hpu]
            simp only [Option.isSome_map']
            exact udsGo_total (sizeOf ukv) ukv nt _ _ _ (le_refl _)
              (fun p hp hpm => rfl) hndu hcd
        | str s => simp [compat] at hc
        | int i => simp [compat] at hc
        | bool b => simp [compat] at hc
        | null => simp [compat] at hc
        | list xs => simp [compat] at hc
        | set xs => simp [compat] at hc
    | str s => cases u <;> simp [compat] at hc
    | int i => cases u <;> simp [compat] at hc
    | bool b => cases u <;> simp [compat] at hc
    | null => cases u <;> simp [compat] at hc
    | list xs => cases u <;> simp [compat] at hc
    | set xs => cases u <;> simp [compat] at hc
  · intro kvs parents hok
    rw [rtv]
    simp only [Option.isSome_map']
    exact rtvGo_total (sizeOf kvs) kvs parents kvs (le_refl _) hok

/-- Closed instance of `C1_totality`: a compatible list-vs-list merge and a
set-free mapping resolve both succeed. -/
theorem C1_totality_witness :
    (uds false (.dict [("a", .list [.int 1])]) (.dict [("a", .list [.int 2])])).isSome
      = true ∧
    (rtv (.dict [("a", .str "x$\x7bb\x7dy"), ("b", .int 3)]) []).isSome = true :=
  ⟨C1_totality.1 false (.dict [("a", .list [.int 1])]) (.dict [("a", .list [.int 2])])
      (by rfl),
    C1_totality.2 [("a", .str "x$\x7bb\x7dy"), ("b", .int 3)] [] (by rfl)⟩

end ConfigMerger
